import Mathlib

/-!
# Verification of the wav2letter `Decode.cpp` driver

A shallow embedding of the decoding driver (`Decode.cpp`) of the wav2letter
repository, together with proofs about its behaviour: the work partition
across decoder threads, the lexicon-trie construction loop, the ordering of
trie insertion / smearing / decoding, the construction-time fatal checks,
the per-worker error handling, and the transition-matrix plumbing.

Machine arithmetic notes: `nSamplePerThread` is computed in the C++ source as
`std::ceil(nSample / static_cast<float>(FLAGS_nthread_decoder))`, i.e. using
IEEE-754 single precision.  We model that computation exactly on `ℕ`
(round-to-nearest-even conversion of the operands, correctly rounded
division, exact ceiling), because the rounding is observable: for large
sample counts the float ceiling falls below the exact ceiling and the
partition drops trailing samples.
-/

namespace W2LDecode

/-! ## IEEE-754 single precision model (positive integers / quotients only)

Only what `Decode.cpp` line 181-182 needs: converting a nonnegative `int` to
`float`, dividing two such floats, and taking `std::ceil` of the result.
All values involved are positive and far from overflow/underflow, so normal
round-to-nearest-even arithmetic on 24-bit significands is the whole story.
-/

/-- Fuel-driven binary logarithm: `log2fuel f n` is `⌊log₂ n⌋` for `2 ≤ n < 2 ^ f`
(and `0` for `n < 2`).  Structural recursion on the fuel keeps it
kernel-reducible. -/
def log2fuel : ℕ → ℕ → ℕ
  | 0, _ => 0
  | fuel + 1, n => if 2 ≤ n then log2fuel fuel (n / 2) + 1 else 0

/-- Floor of the binary logarithm, adequate for all inputs below `2 ^ 64`. -/
def flog2 (n : ℕ) : ℕ := log2fuel 64 n

/-- Round-to-nearest, ties to even: round the exact quotient `m0 + r / den`
(where `0 ≤ r < den`) to a natural number. -/
def rndHalfEven (m0 r den : ℕ) : ℕ :=
  if 2 * r < den then m0
  else if den < 2 * r then m0 + 1
  else if m0 % 2 = 0 then m0 else m0 + 1

/-- The value of `(float)n` for a nonnegative `int n`: the nearest
single-precision float (ties to even).  Exact below `2 ^ 24`; above that the
value is rounded to a multiple of `2 ^ (e - 23)` where `e = ⌊log₂ n⌋`. -/
def floatOfNat (n : ℕ) : ℕ :=
  if n ≤ 2 ^ 24 then n
  else
    let e := flog2 n
    let d := 2 ^ (e - 23)
    rndHalfEven (n / d) (n % d) d * d

/-- The value of `(int)std::ceil(a / b)` where `a` and `b` are the exact
(integral) values of two positive single-precision floats: the quotient is
correctly rounded to single precision (round-to-nearest-even over a 24-bit
significand), then the exact ceiling is taken. -/
def floatDivCeil (a b : ℕ) : ℕ :=
  if a = 0 then 0
  else if a < b then 1
  else
    let e := flog2 (a / b)
    let den := b * 2 ^ e
    let num := a * 2 ^ 23
    let m := rndHalfEven (num / den) (num % den) den
    if 23 ≤ e then m * 2 ^ (e - 23)
    else (m + (2 ^ (23 - e) - 1)) / 2 ^ (23 - e)

/-- `Decode.cpp:181-182` — `nSamplePerThread =
std::ceil(nSample / static_cast<float>(FLAGS_nthread_decoder))`. -/
def nSamplePerThread (nSample nthread : ℕ) : ℕ :=
  floatDivCeil (floatOfNat nSample) (floatOfNat nthread)

/-! ## Work partition (`startThreads`, `Decode.cpp:436-452`) -/

/-- The `(start, end)` half-open sample ranges handed to the decode workers
by `startThreads` (`Decode.cpp:436-452`): one slice `(0, nSample)` when
`FLAGS_nthread_decoder == 1`; otherwise worker `i` gets
`(i * k, min ((i+1) * k) nSample)` with `k = nSamplePerThread`, the loop
breaking at the first worker whose start is `≥ nSample`.  `nthread = 0`
models the `LOG(FATAL) << "Invalid nthread_decoder"` branch: no slices. -/
def slices (nSample nthread : ℕ) : List (ℕ × ℕ) :=
  if nthread = 0 then []
  else if nthread = 1 then [(0, nSample)]
  else
    let k := nSamplePerThread nSample nthread
    ((List.range nthread).takeWhile (fun i => decide (i * k < nSample))).map
      (fun i => (i * k, min ((i + 1) * k) nSample))

/-- Recursive restatement of the slice loop, convenient for induction:
`slicesRec nS k start n` produces the slices of the remaining `n` workers
starting at sample `start`. -/
def slicesRec (nS k : ℕ) : ℕ → ℕ → List (ℕ × ℕ)
  | _, 0 => []
  | start, n + 1 =>
    if start < nS then (start, min (start + k) nS) :: slicesRec nS k (start + k) n
    else []

/-! ## Lexicon trie

The `Trie` class lives in `decoder/Trie.h` / `decoder/Trie.cpp`, which is not
part of the shown source; only its call sites in `Decode.cpp` are.  The trie
operations below are therefore modelled from the spec (section 4.1
"LexiconTrie"); the driver loop that drives them (`Decode.cpp:276-309`) is
embedded from the source.  Label scores are floats in C++; they are modelled
as rationals here, which is faithful because the driver only stores and
retrieves them (no arithmetic is performed on them on the modelled paths).
-/

/-- Modelled from the spec: a trie label, carrying the word's
language-model index (`lm`) and word-dictionary index (`usr`); the C++
`TrieLabel` constructor `TrieLabel(lmIdx, wordDict.getIndex(word))`. -/
structure TrieLabel where
  lm : Int
  usr : Int
deriving DecidableEq, Repr

/-- Modelled from the spec: a trie node owning a token-indexed children map,
a list of labels with their prior scores, and a `maxScore` set only by
smearing (`Option.none` = not yet smeared). -/
inductive TrieNode where
  | node (labels : List (TrieLabel × ℚ)) (children : List (ℕ × TrieNode))
      (maxScore : Option ℚ)
deriving Repr

/-- Label list of a node. -/
def TrieNode.labels : TrieNode → List (TrieLabel × ℚ)
  | .node ls _ _ => ls

/-- Children map of a node. -/
def TrieNode.children : TrieNode → List (ℕ × TrieNode)
  | .node _ cs _ => cs

/-- Smeared score of a node. -/
def TrieNode.maxScore : TrieNode → Option ℚ
  | .node _ _ ms => ms

/-- A fresh node with no labels, no children, and no smeared score. -/
def emptyTrieNode : TrieNode := TrieNode.node [] [] Option.none

/-- Modelled from the spec: child lookup by token index; a missing child is
a distinguishable outcome (`Option.none`), not a crash. -/
def childOf : List (ℕ × TrieNode) → ℕ → Option TrieNode
  | [], _ => Option.none
  | (j, c) :: rest, i => if j = i then Option.some c else childOf rest i

/-- Replace the child at token index `i` (or append it if absent). -/
def setChild : List (ℕ × TrieNode) → ℕ → TrieNode → List (ℕ × TrieNode)
  | [], i, c => [(i, c)]
  | (j, d) :: rest, i, c =>
    if j = i then (j, c) :: rest else (j, d) :: setChild rest i c

/-- Modelled from the spec: walk/create nodes for each token of the sequence
in order, appending the label and score to the final node's label list. -/
def insertTokens : List ℕ → TrieLabel → ℚ → TrieNode → TrieNode
  | [], l, sc, TrieNode.node ls cs ms => TrieNode.node (ls ++ [(l, sc)]) cs ms
  | i :: rest, l, sc, TrieNode.node ls cs ms =>
    TrieNode.node ls
      (setChild cs i
        (insertTokens rest l sc ((childOf cs i).getD emptyTrieNode))) ms

/-- Modelled from the spec: `insert(tokenSequence, label, score)`; inserting
a zero-length token sequence is rejected (a usage error), modelled as
leaving the trie unchanged. -/
def trieInsert (s : List ℕ) (l : TrieLabel) (sc : ℚ) (t : TrieNode) : TrieNode :=
  if s = [] then t else insertTokens s l sc t

/-- Modelled from the spec: follow the token sequence through the children
maps; `Option.none` when the lexicon branch is exhausted. -/
def trieSearch : List ℕ → TrieNode → Option TrieNode
  | [], t => Option.some t
  | i :: rest, t =>
    match childOf t.children i with
    | Option.some c => trieSearch rest c
    | Option.none => Option.none

/-- Labels found at the end of a token sequence (empty when there is no such
path). -/
def labelsAtD (s : List ℕ) (t : TrieNode) : List (TrieLabel × ℚ) :=
  match trieSearch s t with
  | Option.some n => n.labels
  | Option.none => []

mutual
/-- Modelled from the spec: `smear(mode)` is a post-order traversal setting
each node's `maxScore` to a combination of the node's own label scores and
the children's smeared scores.  The combination function (arithmetic max,
log-sum-exp, or the disabled mode) is a parameter `comb`: log-sum-exp is a
floating-point computation, and no claim here depends on the combined
value — only on the traversal leaving labels and structure intact. -/
def smearNode (comb : List ℚ → Option ℚ) : TrieNode → TrieNode
  | .node ls cs _ =>
    let cs' := smearChildren comb cs
    TrieNode.node ls cs'
      (comb (ls.map Prod.snd ++ cs'.filterMap (fun p => p.2.maxScore)))

/-- Post-order smearing of a children list. -/
def smearChildren (comb : List ℚ → Option ℚ) :
    List (ℕ × TrieNode) → List (ℕ × TrieNode)
  | [] => []
  | (i, c) :: rest => (i, smearNode comb c) :: smearChildren comb rest
end

/-! ## The driver's trie-building loop (`Decode.cpp:276-309`) -/

/-- The lexicon as loaded by `loadWords`: each word with its list of
pronunciations, a pronunciation being a list of token strings. -/
abbrev Lexicon : Type := List (String × List (List String))

/-- `Decode.cpp:289` — `tokens2Tensor(tokens, tokenDict)`: map each token
string to its token-dictionary index. -/
def tokens2Tensor (tokenIndex : String → ℕ) (tokens : List String) : List ℕ :=
  tokens.map tokenIndex

/-- `Decode.cpp:282-287` — the LM index stored in a word's trie labels:
`lm->index(word)` when `FLAGS_decodertype == "wrd"`, `-1` otherwise. -/
def lexLmIdx (dt : String) (lmIndex : String → Int) (word : String) : Int :=
  if dt = "wrd" then lmIndex word else -1

/-- `Decode.cpp:282-287` — the score stored with a word's trie labels:
`lm->score(start_state, lmIdx, score)` (scoring the word from the LM start
state, `lmStartScore`) when `FLAGS_decodertype == "wrd"`, `-1` otherwise. -/
def lexScore (dt : String) (lmIndex : String → Int) (lmStartScore : Int → ℚ)
    (word : String) : ℚ :=
  if dt = "wrd" then lmStartScore (lmIndex word) else -1

/-- The flattened list of `trie->insert` calls issued by the loop at
`Decode.cpp:280-295`: one insertion per pronunciation of each lexicon word,
in lexicon order. -/
def lexInserts (dt : String) (tokenIndex : String → ℕ) (wordIndex : String → Int)
    (lmIndex : String → Int) (lmStartScore : Int → ℚ) (lex : Lexicon) :
    List (List ℕ × TrieLabel × ℚ) :=
  lex.flatMap (fun wp =>
    wp.2.map (fun pron =>
      (tokens2Tensor tokenIndex pron,
        TrieLabel.mk (lexLmIdx dt lmIndex wp.1) (wordIndex wp.1),
        lexScore dt lmIndex lmStartScore wp.1)))

/-- `Decode.cpp:280-295` — the nested loop over lexicon words and their
pronunciations, inserting every pronunciation into a fresh trie. -/
def buildTrieRaw (dt : String) (tokenIndex : String → ℕ) (wordIndex : String → Int)
    (lmIndex : String → Int) (lmStartScore : Int → ℚ) (lex : Lexicon) : TrieNode :=
  lex.foldl
    (fun t wp =>
      wp.2.foldl
        (fun t2 pron =>
          trieInsert (tokens2Tensor tokenIndex pron)
            (TrieLabel.mk (lexLmIdx dt lmIndex wp.1) (wordIndex wp.1))
            (lexScore dt lmIndex lmStartScore wp.1) t2)
        t)
    emptyTrieNode

/-- `Decode.cpp:276-309` — the trie as the decoders see it: all insertions
followed by the one `trie->smear(smear_mode)` call. -/
def buildTrie (dt : String) (tokenIndex : String → ℕ) (wordIndex : String → Int)
    (lmIndex : String → Int) (lmStartScore : Int → ℚ)
    (comb : List ℚ → Option ℚ) (lex : Lexicon) : TrieNode :=
  smearNode comb (buildTrieRaw dt tokenIndex wordIndex lmIndex lmStartScore lex)

/-! ## Event trace of the driver (`Decode.cpp:251-455`)

The construction/decoding phases of `main` are modelled as the sequence of
observable calls they make: trie insertions, the smearing call, decoder
construction (with the trie pointer that is passed — `Option.none` models a
null `std::shared_ptr<Trie>`), per-sample `decoder->decode` calls, and
`LOG(FATAL)` terminations (which end the trace).  The per-thread slice loops
are linearized in worker order; this preserves every happens-before edge the
claims are about, since the trie work happens before the thread pool starts.
-/

/-- The smearing modes of `SmearingMode` (`noSmear` is `NONE`). -/
inductive SmearMode where
  | noSmear
  | logadd
  | maxSmear
deriving DecidableEq, Repr

/-- The three decoder variants constructed by `runDecoder`. -/
inductive DecoderKind where
  | wordLM
  | tokenLM
  | lexiconFree
deriving DecidableEq, Repr

/-- The `LOG(FATAL)` sites of the modelled part of the driver. -/
inductive FatalKind where
  | invalidLMType
  | invalidSil
  | invalidBlank
  | invalidSmearing
  | unsupportedDecoderType
  | invalidNthread
deriving DecidableEq, Repr

/-- Observable events of the driver. -/
inductive TraceEvent where
  | insertEvt (word : String) (pron : List String)
  | smearEvt (mode : SmearMode)
  | buildDecoderEvt (kind : DecoderKind) (trieArg : Option Unit)
  | decodeEvt (sample : ℕ)
  | fatalEvt (k : FatalKind)
deriving DecidableEq, Repr

/-- Whether an event is a trie insertion. -/
def TraceEvent.isInsert : TraceEvent → Bool
  | .insertEvt _ _ => true
  | _ => false

/-- Whether an event is the smearing call. -/
def TraceEvent.isSmear : TraceEvent → Bool
  | .smearEvt _ => true
  | _ => false

/-- Whether an event is a decoder construction. -/
def TraceEvent.isBuildDecoder : TraceEvent → Bool
  | .buildDecoderEvt _ _ => true
  | _ => false

/-- Whether an event is a `decoder->decode` call. -/
def TraceEvent.isDecode : TraceEvent → Bool
  | .decodeEvt _ => true
  | _ => false

/-- Whether an event is a `LOG(FATAL)`. -/
def TraceEvent.isFatal : TraceEvent → Bool
  | .fatalEvt _ => true
  | _ => false

/-- The flag/configuration inputs of the modelled part of `main`. -/
structure Config where
  silToken : String
  blankToken : String
  lmtype : String
  lexicon : List (String × List (List String))
  decodertype : String
  smearing : String
  nSample : ℕ
  nthread : ℕ

/-- `Decode.cpp:300-307` — parse `FLAGS_smearing`; `Option.none` models the
`LOG(FATAL) << "Invalid smearing mode"` branch. -/
def smearModeOf (s : String) : Option SmearMode :=
  if s = "logadd" then Option.some SmearMode.logadd
  else if s = "max" then Option.some SmearMode.maxSmear
  else if s = "none" then Option.some SmearMode.noSmear
  else Option.none

/-- The trie pointer available to `runDecoder`: non-null exactly when the
lexicon is non-empty (`Decode.cpp:275-277`). -/
def trieArgOf (cfg : Config) : Option Unit :=
  if cfg.lexicon.isEmpty then Option.none else Option.some ()

/-- `Decode.cpp:318-349` — which decoder `runDecoder` constructs, and with
which trie argument; `Option.none` (the result) models the
`LOG(FATAL) << "Unsupported decoder type"` branch.  Note that the
`"wrd"` branch passes the trie pointer unconditionally, null or not. -/
def decoderEventsOpt (cfg : Config) : Option (List TraceEvent) :=
  if cfg.decodertype = "wrd" then
    Option.some [TraceEvent.buildDecoderEvt DecoderKind.wordLM (trieArgOf cfg)]
  else if cfg.decodertype = "tkn" then
    if cfg.lexicon.isEmpty then
      Option.some [TraceEvent.buildDecoderEvt DecoderKind.lexiconFree Option.none]
    else
      Option.some [TraceEvent.buildDecoderEvt DecoderKind.tokenLM (trieArgOf cfg)]
  else Option.none

/-- `Decode.cpp:436-455` — the decoding phase: each worker's slice builds
its decoder and decodes its samples in order. -/
def decodePhase (cfg : Config) : List TraceEvent :=
  if cfg.nthread = 0 then [TraceEvent.fatalEvt FatalKind.invalidNthread]
  else
    match decoderEventsOpt cfg with
    | Option.none => [TraceEvent.fatalEvt FatalKind.unsupportedDecoderType]
    | Option.some b =>
      (slices cfg.nSample cfg.nthread).flatMap
        (fun se => b ++ (List.range' se.1 (se.2 - se.1)).map TraceEvent.decodeEvt)

/-- The `trie->insert` calls issued by `Decode.cpp:280-295`, one per
pronunciation of each lexicon word, in order. -/
def insertEvents (lex : List (String × List (List String))) : List TraceEvent :=
  lex.flatMap (fun wp => wp.2.map (fun pron => TraceEvent.insertEvt wp.1 pron))

/-- `Decode.cpp:251-455` — the driver's event trace from LM construction to
the end of decoding: LM-type check, silence/blank token length checks, trie
construction and smearing (when a lexicon is configured), then the decoding
phase.  A `LOG(FATAL)` terminates the trace. -/
def mainTrace (cfg : Config) : List TraceEvent :=
  if cfg.lmtype = "kenlm" then
    if cfg.silToken.length ≠ 1 then [TraceEvent.fatalEvt FatalKind.invalidSil]
    else if cfg.blankToken.length ≠ 1 then [TraceEvent.fatalEvt FatalKind.invalidBlank]
    else if cfg.lexicon.isEmpty then decodePhase cfg
    else
      match smearModeOf cfg.smearing with
      | Option.none => insertEvents cfg.lexicon ++ [TraceEvent.fatalEvt FatalKind.invalidSmearing]
      | Option.some m => insertEvents cfg.lexicon ++ TraceEvent.smearEvt m :: decodePhase cfg
  else [TraceEvent.fatalEvt FatalKind.invalidLMType]

/-! ## Worker error handling (`runDecoder`, `Decode.cpp:313-433`) -/

/-- Outcome of one worker: either its slice completed, or the
`catch (const std::exception&)` handler ran `LOG(FATAL)`, which aborts the
whole process. -/
inductive WorkerOutcome where
  | done
  | fatalAbort (tid : ℕ)
deriving DecidableEq, Repr

/-- Outcome of the whole decode run. -/
inductive ProcessOutcome where
  | finished
  | terminatedBy (tid : ℕ)
deriving DecidableEq, Repr

/-- The `for (int s = start; s < end; s++)` body of `runDecoder`: the first
exception thrown while decoding a sample propagates out of the loop. -/
def runSliceBody (decodeOne : ℕ → Except String Unit) : List ℕ → Except String Unit
  | [] => Except.ok ()
  | s :: rest =>
    match decodeOne s with
    | Except.ok _ => runSliceBody decodeOne rest
    | Except.error msg => Except.error msg

/-- `Decode.cpp:313-433` — one worker: run the slice `[start, stop)`; an
escaping exception hits the `catch` block at line 430, whose
`LOG(FATAL) << "Exception in thread " << tid` aborts the process. -/
def runDecoderWorker (decodeOne : ℕ → Except String Unit) (tid start stop : ℕ) :
    WorkerOutcome :=
  match runSliceBody decodeOne (List.range' start (stop - start)) with
  | Except.ok _ => WorkerOutcome.done
  | Except.error _ => WorkerOutcome.fatalAbort tid

/-- The whole run: workers get the slices of `startThreads`; if any worker
reaches its `LOG(FATAL)`, the process terminates (taking every other
worker's in-flight decode with it), otherwise the run finishes. -/
def processOutcome (decodeOne : ℕ → Except String Unit) (nSample nthread : ℕ) :
    ProcessOutcome :=
  match (slices nSample nthread).enum.filterMap
      (fun p =>
        match runDecoderWorker decodeOne p.1 p.2.1 p.2.2 with
        | WorkerOutcome.fatalAbort t => Option.some t
        | WorkerOutcome.done => Option.none) with
  | [] => ProcessOutcome.finished
  | t :: _ => ProcessOutcome.terminatedBy t

/-- A decode function that throws on sample 0 and succeeds elsewhere. -/
def throwingDecode : ℕ → Except String Unit :=
  fun s => if s = 0 then Except.error "runtime error" else Except.ok ()

/-! ## Transition matrix plumbing (`Decode.cpp:68, 99, 174-177, 202`) -/

/-- The two criteria accepted by the decoder driver (`Decode.cpp:195-200`);
any other criterion is a fatal error before decoding. -/
inductive Criterion where
  | asg
  | ctc
deriving DecidableEq, Repr

/-- The transition vector handed to every decoder constructor
(`emissionSet.transition`, read at `Decode.cpp:202` and passed at lines
320/337/343).  In the precomputed-emission path (`FLAGS_emission_dir` set)
it is whatever `W2lSerializer::load` put there (`Decode.cpp:99`); in the
acoustic-model path it starts empty (`Decode.cpp:68`) and is filled from
`criterion->param(0)` only when `FLAGS_criterion == kAsgCriterion`
(`Decode.cpp:174-176`). -/
def transitionVec (useEmissionDir : Bool) (serializedTransition : List ℚ)
    (criterion : Criterion) (asgParams : List ℚ) : List ℚ :=
  if useEmissionDir then serializedTransition
  else
    match criterion with
    | Criterion.asg => asgParams
    | Criterion.ctc => []

/-! ## Reading the decode results (`Decode.cpp:364-368`) -/

/-- The result of `decoder->decode` as consumed by the driver. -/
structure DecodeResult where
  score : ℚ
  words : List Int
  tokens : List Int

/-- `Decode.cpp:367-368` — the driver reads `results[0].words_` and
`results[0].tokens_` with no emptiness guard; `std::vector::operator[]` on
an empty vector is out of bounds, modelled as `Option.none`. -/
def readTopResult (results : List DecodeResult) : Option (List Int × List Int) :=
  match results with
  | [] => Option.none
  | r :: _ => Option.some (r.words, r.tokens)

/-- The per-slice sample loop (`Decode.cpp:355-368`) reduced to its access
of the decode results: each sample's result list has its first element read
unconditionally; the loop fails at the first empty result list. -/
def processSlice (decodeFn : ℕ → List DecodeResult) : List ℕ → Option Unit
  | [] => Option.some ()
  | s :: rest =>
    match readTopResult (decodeFn s) with
    | Option.none => Option.none
    | Option.some _ => processSlice decodeFn rest

/-! ## Language-model construction (`Decode.cpp:251-259`) -/

/-- How LM construction can end in the driver. -/
inductive LMBuildResult where
  | built
  | fatalFailedToLoad
  | fatalInvalidType
  | exceptionPropagated (msg : String)
deriving DecidableEq, Repr

/-- `Decode.cpp:251-259` — build the language model.  Per the C++ semantics
of `std::make_shared`, the constructor either throws (modelled by the
`Except.error` input, which propagates) or returns a non-null `shared_ptr`
(modelled by wrapping the handle in `Option.some`); the subsequent
`if (!lm)` null check then selects `fatalFailedToLoad` only on
`Option.none`. -/
def buildLM (lmtype : String) (kenlmNew : Except String Unit) : LMBuildResult :=
  if lmtype = "kenlm" then
    match kenlmNew with
    | Except.error msg => LMBuildResult.exceptionPropagated msg
    | Except.ok h =>
      match (Option.some h : Option Unit) with
      | Option.none => LMBuildResult.fatalFailedToLoad
      | Option.some _ => LMBuildResult.built
  else LMBuildResult.fatalInvalidType

/-! ## Concrete inputs used by the witnesses and counterexamples -/

/-- Configuration requesting the word-LM decoder with an empty lexicon. -/
def wrdNoLexiconCfg : Config :=
  { silToken := "|", blankToken := "#", lmtype := "kenlm", lexicon := [],
    decodertype := "wrd", smearing := "max", nSample := 1, nthread := 1 }

/-- Configuration with a two-character silence token. -/
def badSilCfg : Config :=
  { silToken := "||", blankToken := "#", lmtype := "kenlm", lexicon := [],
    decodertype := "wrd", smearing := "max", nSample := 1, nthread := 1 }

/-- Configuration with a lexicon, used to witness the smearing order. -/
def lexiconCfg : Config :=
  { silToken := "|", blankToken := "#", lmtype := "kenlm",
    lexicon := [("ab", [["a", "b"]])], decodertype := "wrd",
    smearing := "max", nSample := 1, nthread := 1 }

/-- Token indices for the witness lexicon. -/
def cTokenIndex : String → ℕ := fun s => if s = "a" then 0 else 1

/-- Word-dictionary indices for the witness lexicon. -/
def cWordIndex : String → Int := fun _ => 5

/-- LM vocabulary indices for the witness lexicon. -/
def cLmIndex : String → Int := fun _ => 7

/-- LM start-state scores for the witness lexicon. -/
def cLmStartScore : Int → ℚ := fun _ => 2

/-- A combination function for smearing in witnesses. -/
def cComb : List ℚ → Option ℚ := fun _ => Option.none

end W2LDecode

namespace W2LDecode

theorem slicesRec_eq_takeWhile (nS k : ℕ) :
    ∀ (n i : ℕ),
      (((List.range' i n).takeWhile (fun j => decide (j * k < nS))).map
        (fun j => (j * k, min ((j + 1) * k) nS))) = slicesRec nS k (i * k) n := by
  intro n
  induction n with
  | zero => intro i; simp [slicesRec]
  | succ n ih =>
    intro i
    rw [List.range'_succ]
    by_cases h : i * k < nS
    · have hstep : List.takeWhile (fun j => decide (j * k < nS)) (i :: List.range' (i + 1) n)
          = i :: List.takeWhile (fun j => decide (j * k < nS)) (List.range' (i + 1) n) := by
        simp [List.takeWhile_cons, h]
      rw [hstep, List.map_cons, ih (i + 1), slicesRec, if_pos h, Nat.succ_mul]
    · have hstep : List.takeWhile (fun j => decide (j * k < nS)) (i :: List.range' (i + 1) n)
          = [] := by
        simp [List.takeWhile_cons, h]
      rw [hstep, slicesRec, if_neg h]
      rfl

theorem slices_eq_slicesRec (nS nt : ℕ) (h : 2 ≤ nt) :
    slices nS nt = slicesRec nS (nSamplePerThread nS nt) 0 nt := by
  have h0 : nt ≠ 0 := by omega
  have h1 : nt ≠ 1 := by omega
  rw [slices, if_neg h0, if_neg h1]
  have := slicesRec_eq_takeWhile nS (nSamplePerThread nS nt) nt 0
  simpa [List.range_eq_range'] using this

/-- Counting, for a fixed sample index `j`, the slices of the remaining
workers that contain `j`: exactly one when `start ≤ j < nS` and `j` is within
reach of the remaining workers, zero otherwise. -/
theorem slicesRec_countP (nS k j : ℕ) :
    ∀ (n start : ℕ),
      (slicesRec nS k start n).countP
          (fun se => decide (se.1 ≤ j) && decide (j < se.2)) =
        if start ≤ j ∧ j < nS ∧ j < start + n * k then 1 else 0 := by
  intro n
  induction n with
  | zero =>
    intro start
    have hno : ¬(start ≤ j ∧ j < nS ∧ j < start) := by omega
    simp [slicesRec, hno]
  | succ n ih =>
    intro start
    have hnm : (n + 1) * k = n * k + k := Nat.succ_mul n k
    rw [slicesRec]
    by_cases hs : start < nS
    · rw [if_pos hs, List.countP_cons, ih (start + k)]
      by_cases hin : start ≤ j ∧ j < min (start + k) nS
      · have hcond : (decide (start ≤ j) && decide (j < min (start + k) nS)) = true := by
          simp [hin.1, hin.2]
        rw [hcond]
        have h1 : ¬(start + k ≤ j ∧ j < nS ∧ j < start + k + n * k) := by omega
        have h2 : start ≤ j ∧ j < nS ∧ j < start + (n + 1) * k := by omega
        rw [if_neg h1, if_pos h2]
        simp
      · have hcond : (decide (start ≤ j) && decide (j < min (start + k) nS)) = false := by
          by_cases ha : start ≤ j
          · have hb : ¬ j < min (start + k) nS := fun hb => hin ⟨ha, hb⟩
            simp [hb]
          · simp [ha]
        rw [hcond]
        have heq : (start + k ≤ j ∧ j < nS ∧ j < start + k + n * k) ↔
            (start ≤ j ∧ j < nS ∧ j < start + (n + 1) * k) := by omega
        by_cases hrhs : start ≤ j ∧ j < nS ∧ j < start + (n + 1) * k
        · rw [if_pos (heq.mpr hrhs), if_pos hrhs]
          simp
        · rw [if_neg (fun hc => hrhs (heq.mp hc)), if_neg hrhs]
          simp
    · rw [if_neg hs]
      have hno : ¬(start ≤ j ∧ j < nS ∧ j < start + (n + 1) * k) := by omega
      simp [hno]

theorem slicesRec_chain (nS k : ℕ) :
    ∀ (n start : ℕ), (slicesRec nS k start n).Chain' (fun a b => a.2 = b.1) := by
  intro n
  induction n with
  | zero => intro start; simp [slicesRec]
  | succ n ih =>
    intro start
    rw [slicesRec]
    by_cases hs : start < nS
    · rw [if_pos hs]
      apply List.chain'_cons'.mpr
      refine ⟨?_, ih (start + k)⟩
      intro b hb
      cases n with
      | zero => simp [slicesRec] at hb
      | succ m =>
        rw [slicesRec] at hb
        by_cases hs2 : start + k < nS
        · rw [if_pos hs2] at hb
          simp only [List.head?_cons, Option.mem_def, Option.some.injEq] at hb
          subst hb
          simp
          omega
        · rw [if_neg hs2] at hb
          simp at hb
    · rw [if_neg hs]
      simp

/-! ### Trie lemmas -/

theorem childOf_setChild (i : ℕ) (c : TrieNode) :
    ∀ (cs : List (ℕ × TrieNode)) (q : ℕ),
      childOf (setChild cs i c) q = if i = q then Option.some c else childOf cs q := by
  intro cs
  induction cs with
  | nil =>
    intro q
    by_cases h : i = q <;> simp [setChild, childOf, h]
  | cons p rest ih =>
    intro q
    obtain ⟨j, d⟩ := p
    by_cases hji : j = i
    · subst hji
      by_cases hjq : j = q <;> simp [setChild, childOf, hjq]
    · by_cases hjq : j = q
      · subst hjq
        have hiq : i ≠ j := fun h => hji h.symm
        simp [setChild, childOf, hji, hiq]
      · simp [setChild, childOf, hji, hjq, ih q]

theorem labelsAtD_emptyTrieNode : ∀ s : List ℕ, labelsAtD s emptyTrieNode = [] := by
  intro s
  cases s with
  | nil => rfl
  | cons i rest => rfl

theorem labelsAtD_cons (i : ℕ) (rest : List ℕ) (ls : List (TrieLabel × ℚ))
    (cs : List (ℕ × TrieNode)) (ms : Option ℚ) :
    labelsAtD (i :: rest) (TrieNode.node ls cs ms) =
      labelsAtD rest ((childOf cs i).getD emptyTrieNode) := by
  cases h : childOf cs i with
  | none =>
    rw [Option.getD_none, labelsAtD_emptyTrieNode]
    simp [labelsAtD, trieSearch, TrieNode.children, h]
  | some c =>
    simp [labelsAtD, trieSearch, TrieNode.children, h]

theorem labelsAtD_insertTokens (l : TrieLabel) (sc : ℚ) :
    ∀ (s : List ℕ) (t : TrieNode) (s0 : List ℕ),
      labelsAtD s0 (insertTokens s l sc t) =
        labelsAtD s0 t ++ (if s0 = s then [(l, sc)] else []) := by
  intro s
  induction s with
  | nil =>
    intro t s0
    obtain ⟨ls, cs, ms⟩ := t
    cases s0 with
    | nil => simp [insertTokens, labelsAtD, trieSearch, TrieNode.labels]
    | cons j r0 =>
      rw [insertTokens, labelsAtD_cons, labelsAtD_cons]
      simp
  | cons i rest ih =>
    intro t s0
    obtain ⟨ls, cs, ms⟩ := t
    cases s0 with
    | nil =>
      simp [insertTokens, labelsAtD, trieSearch, TrieNode.labels]
    | cons j r0 =>
      rw [insertTokens, labelsAtD_cons, labelsAtD_cons, childOf_setChild]
      by_cases hij : i = j
      · subst hij
        rw [if_pos rfl, Option.getD_some, ih]
        by_cases hr : r0 = rest
        · subst hr
          simp
        · have : (i :: r0 = i :: rest) ↔ False := by simp [hr]
          simp [hr, this]
      · rw [if_neg hij]
        have : (j :: r0 = i :: rest) ↔ False := by
          simp
          intro h
          exact absurd h.symm hij
        simp [this]

theorem labelsAtD_trieInsert (s : List ℕ) (l : TrieLabel) (sc : ℚ) (t : TrieNode)
    (s0 : List ℕ) :
    labelsAtD s0 (trieInsert s l sc t) =
      labelsAtD s0 t ++ (if s ≠ [] ∧ s0 = s then [(l, sc)] else []) := by
  rw [trieInsert]
  by_cases hs : s = []
  · have : ¬(s ≠ [] ∧ s0 = s) := fun h => h.1 hs
    simp [hs, this]
  · rw [if_neg hs, labelsAtD_insertTokens]
    by_cases h0 : s0 = s
    · simp [h0, hs]
    · simp [h0]

theorem labelsAtD_foldl_insert :
    ∀ (L : List (List ℕ × TrieLabel × ℚ)) (t : TrieNode) (s0 : List ℕ),
      labelsAtD s0 (L.foldl (fun acc ins => trieInsert ins.1 ins.2.1 ins.2.2 acc) t) =
        labelsAtD s0 t ++
          L.filterMap
            (fun ins => if ins.1 ≠ [] ∧ s0 = ins.1 then Option.some ins.2 else Option.none) := by
  intro L
  induction L with
  | nil => intro t s0; simp
  | cons ins L ih =>
    intro t s0
    rw [List.foldl_cons, ih, labelsAtD_trieInsert, List.filterMap_cons]
    by_cases hc : ins.1 ≠ [] ∧ s0 = ins.1
    · rw [if_pos hc, if_pos hc, List.append_assoc]
      rfl
    · rw [if_neg hc, if_neg hc, List.append_nil]

theorem buildTrieRaw_eq_foldl (dt : String) (tIdx : String → ℕ) (wIdx : String → Int)
    (lmIdx : String → Int) (lmSc : Int → ℚ) (lex : Lexicon) :
    buildTrieRaw dt tIdx wIdx lmIdx lmSc lex =
      (lexInserts dt tIdx wIdx lmIdx lmSc lex).foldl
        (fun acc ins => trieInsert ins.1 ins.2.1 ins.2.2 acc) emptyTrieNode := by
  rw [buildTrieRaw]
  generalize emptyTrieNode = t
  induction lex generalizing t with
  | nil => simp [lexInserts]
  | cons wp rest ih =>
    rw [List.foldl_cons]
    show _ = (lexInserts dt tIdx wIdx lmIdx lmSc (wp :: rest)).foldl _ t
    have hflat : lexInserts dt tIdx wIdx lmIdx lmSc (wp :: rest) =
        (wp.2.map (fun pron =>
          (tokens2Tensor tIdx pron,
            TrieLabel.mk (lexLmIdx dt lmIdx wp.1) (wIdx wp.1),
            lexScore dt lmIdx lmSc wp.1))) ++ lexInserts dt tIdx wIdx lmIdx lmSc rest := by
      simp [lexInserts]
    rw [hflat, List.foldl_append, List.foldl_map, ih]

theorem childOf_smearChildren (comb : List ℚ → Option ℚ) :
    ∀ (cs : List (ℕ × TrieNode)) (i : ℕ),
      childOf (smearChildren comb cs) i = (childOf cs i).map (smearNode comb) := by
  intro cs
  induction cs with
  | nil => intro i; simp [smearChildren, childOf]
  | cons p rest ih =>
    intro i
    obtain ⟨j, c⟩ := p
    rw [smearChildren]
    by_cases h : j = i
    · simp [childOf, h]
    · simp [childOf, h, ih]

theorem labelsAtD_smearNode (comb : List ℚ → Option ℚ) :
    ∀ (s0 : List ℕ) (t : TrieNode),
      labelsAtD s0 (smearNode comb t) = labelsAtD s0 t := by
  intro s0
  induction s0 with
  | nil =>
    intro t
    obtain ⟨ls, cs, ms⟩ := t
    simp [smearNode, labelsAtD, trieSearch, TrieNode.labels]
  | cons i rest ih =>
    intro t
    obtain ⟨ls, cs, ms⟩ := t
    rw [smearNode]
    rw [labelsAtD_cons, labelsAtD_cons, childOf_smearChildren]
    cases h : childOf cs i with
    | none => simp [labelsAtD_emptyTrieNode]
    | some c => simp [ih]

theorem labelsAtD_buildTrie (dt : String) (tIdx : String → ℕ) (wIdx : String → Int)
    (lmIdx : String → Int) (lmSc : Int → ℚ) (comb : List ℚ → Option ℚ)
    (lex : Lexicon) (s0 : List ℕ) :
    labelsAtD s0 (buildTrie dt tIdx wIdx lmIdx lmSc comb lex) =
      (lexInserts dt tIdx wIdx lmIdx lmSc lex).filterMap
        (fun ins => if ins.1 ≠ [] ∧ s0 = ins.1 then Option.some ins.2 else Option.none) := by
  rw [buildTrie, labelsAtD_smearNode, buildTrieRaw_eq_foldl, labelsAtD_foldl_insert,
    labelsAtD_emptyTrieNode, List.nil_append]

/-! ### Claim theorems: trie round trip (C7) and label contents (C9) -/

/-- C7: for every word of the lexicon and every one of its (non-empty)
pronunciations, the driver's loop (`Decode.cpp:280-295`) inserts that
pronunciation's token sequence with a label carrying the word's LM index
and word-dictionary index and the associated score, and searching the built
(and smeared) trie with the same token sequence returns a node whose label
list contains that label with that score; moreover distinct pronunciations
are independent paths: an insertion along one token sequence never changes
the labels found along any other token sequence. -/
theorem trie_insert_roundtrip (dt : String) (tIdx : String → ℕ) (wIdx : String → Int)
    (lmIdx : String → Int) (lmSc : Int → ℚ) (comb : List ℚ → Option ℚ)
    (lex : Lexicon) (word : String) (prons : List (List String)) (pron : List String)
    (h1 : (word, prons) ∈ lex) (h2 : pron ∈ prons) (h3 : pron ≠ []) :
    (∃ n : TrieNode,
        trieSearch (tokens2Tensor tIdx pron)
            (buildTrie dt tIdx wIdx lmIdx lmSc comb lex) = Option.some n ∧
          (TrieLabel.mk (lexLmIdx dt lmIdx word) (wIdx word),
            lexScore dt lmIdx lmSc word) ∈ n.labels) ∧
    (∀ (t : TrieNode) (s sOther : List ℕ) (l : TrieLabel) (sc : ℚ),
        sOther ≠ s → labelsAtD sOther (trieInsert s l sc t) = labelsAtD sOther t) := by
  constructor
  · have hne : tokens2Tensor tIdx pron ≠ [] := by
      rw [tokens2Tensor]
      simpa using h3
    have hmem : (tokens2Tensor tIdx pron,
        TrieLabel.mk (lexLmIdx dt lmIdx word) (wIdx word),
        lexScore dt lmIdx lmSc word) ∈ lexInserts dt tIdx wIdx lmIdx lmSc lex := by
      rw [lexInserts]
      exact List.mem_flatMap.mpr ⟨(word, prons), h1, List.mem_map.mpr ⟨pron, h2, rfl⟩⟩
    have hlab : (TrieLabel.mk (lexLmIdx dt lmIdx word) (wIdx word),
        lexScore dt lmIdx lmSc word) ∈
          labelsAtD (tokens2Tensor tIdx pron)
            (buildTrie dt tIdx wIdx lmIdx lmSc comb lex) := by
      rw [labelsAtD_buildTrie]
      apply List.mem_filterMap.mpr
      exact ⟨_, hmem, by rw [if_pos ⟨hne, rfl⟩]⟩
    rw [labelsAtD] at hlab
    cases hsr : trieSearch (tokens2Tensor tIdx pron)
        (buildTrie dt tIdx wIdx lmIdx lmSc comb lex) with
    | none => rw [hsr] at hlab; simp at hlab
    | some n =>
      rw [hsr] at hlab
      exact ⟨n, rfl, hlab⟩
  · intro t s sOther l sc hne
    rw [labelsAtD_trieInsert]
    have : ¬(s ≠ [] ∧ sOther = s) := fun h => hne h.2
    simp [this]

/-- Witness for C7 at a concrete lexicon: the word `"ab"` with
pronunciation `["a", "b"]` under the word-LM decoder type. -/
theorem trie_insert_roundtrip_witness :
    (("ab", [["a", "b"]]) ∈ ([("ab", [["a", "b"]])] : Lexicon) ∧
        ["a", "b"] ∈ [["a", "b"]] ∧ ["a", "b"] ≠ ([] : List String)) ∧
      ((∃ n : TrieNode,
          trieSearch (tokens2Tensor cTokenIndex ["a", "b"])
              (buildTrie "wrd" cTokenIndex cWordIndex cLmIndex cLmStartScore cComb
                [("ab", [["a", "b"]])]) = Option.some n ∧
            (TrieLabel.mk (lexLmIdx "wrd" cLmIndex "ab") (cWordIndex "ab"),
              lexScore "wrd" cLmIndex cLmStartScore "ab") ∈ n.labels) ∧
        (∀ (t : TrieNode) (s sOther : List ℕ) (l : TrieLabel) (sc : ℚ),
            sOther ≠ s → labelsAtD sOther (trieInsert s l sc t) = labelsAtD sOther t)) :=
  ⟨⟨by decide, by decide, by decide⟩,
    trie_insert_roundtrip "wrd" cTokenIndex cWordIndex cLmIndex cLmStartScore cComb
      [("ab", [["a", "b"]])] "ab" [["a", "b"]] ["a", "b"]
      (by decide) (by decide) (by decide)⟩

/-- C9: every label/score pair reachable anywhere in the trie built by the
driver comes from some lexicon word; when the decoder type is not `"wrd"`
its LM index is `-1` and its score is `-1`, and when the decoder type is
`"wrd"` it carries the word's LM vocabulary index, the word's dictionary
index, and the score of that word from the LM start state
(`Decode.cpp:280-295`). -/
theorem trie_label_contents (dt : String) (tIdx : String → ℕ) (wIdx : String → Int)
    (lmIdx : String → Int) (lmSc : Int → ℚ) (comb : List ℚ → Option ℚ)
    (lex : Lexicon) (s0 : List ℕ) (l : TrieLabel) (sc : ℚ)
    (h : (l, sc) ∈ labelsAtD s0 (buildTrie dt tIdx wIdx lmIdx lmSc comb lex)) :
    (dt ≠ "wrd" → l.lm = -1 ∧ sc = -1) ∧
      (dt = "wrd" →
        ∃ w prons, (w, prons) ∈ lex ∧
          l.lm = lmIdx w ∧ l.usr = wIdx w ∧ sc = lmSc (lmIdx w)) := by
  rw [labelsAtD_buildTrie] at h
  obtain ⟨ins, hins, hif⟩ := List.mem_filterMap.mp h
  by_cases hc : ins.1 ≠ [] ∧ s0 = ins.1
  · rw [if_pos hc] at hif
    have hins2 : ins.2 = (l, sc) := Option.some.inj hif
    obtain ⟨wp, hwp, hmem⟩ := List.mem_flatMap.mp hins
    obtain ⟨pron, _, heq⟩ := List.mem_map.mp hmem
    rw [← heq] at hins2
    have hl : TrieLabel.mk (lexLmIdx dt lmIdx wp.1) (wIdx wp.1) = l :=
      congrArg Prod.fst hins2
    have hsc : lexScore dt lmIdx lmSc wp.1 = sc :=
      congrArg Prod.snd hins2
    constructor
    · intro hdt
      rw [← hl, ← hsc]
      constructor
      · simp [lexLmIdx, hdt]
      · simp [lexScore, hdt]
    · intro hdt
      refine ⟨wp.1, wp.2, ?_, ?_, ?_, ?_⟩
      · simpa using hwp
      · rw [← hl]; simp [lexLmIdx, hdt]
      · rw [← hl]
      · rw [← hsc]; simp [lexScore, hdt]
  · rw [if_neg hc] at hif
    exact Option.noConfusion hif

/-- Witness for C9 at a concrete lexicon under the token-LM decoder type:
the single label of the built trie carries LM index `-1` and score `-1`. -/
theorem trie_label_contents_witness :
    ((TrieLabel.mk (-1) 5, (-1 : ℚ)) ∈
        labelsAtD [0]
          (buildTrie "tkn" cTokenIndex cWordIndex cLmIndex cLmStartScore cComb
            [("a", [["a"]])])) ∧
      ((("tkn" : String) ≠ "wrd" → (TrieLabel.mk (-1) 5).lm = -1 ∧ (-1 : ℚ) = -1) ∧
        (("tkn" : String) = "wrd" →
          ∃ w prons, (w, prons) ∈ ([("a", [["a"]])] : Lexicon) ∧
            (TrieLabel.mk (-1) 5).lm = cLmIndex w ∧
            (TrieLabel.mk (-1) 5).usr = cWordIndex w ∧
            (-1 : ℚ) = cLmStartScore (cLmIndex w))) :=
  ⟨by decide,
    trie_label_contents "tkn" cTokenIndex cWordIndex cLmIndex cLmStartScore cComb
      [("a", [["a"]])] [0] (TrieLabel.mk (-1) 5) (-1) (by decide)⟩

/-! ### Trace lemmas -/

theorem insertEvents_shape (lex : List (String × List (List String))) :
    ∀ e ∈ insertEvents lex,
      e.isInsert = true ∧ e.isSmear = false ∧ e.isDecode = false ∧
        e.isBuildDecoder = false := by
  intro e he
  rw [insertEvents] at he
  obtain ⟨wp, _, hm⟩ := List.mem_flatMap.mp he
  obtain ⟨pron, _, heq⟩ := List.mem_map.mp hm
  subst heq
  exact ⟨rfl, rfl, rfl, rfl⟩

theorem decoderEventsOpt_shape (cfg : Config) (b : List TraceEvent)
    (hb : decoderEventsOpt cfg = Option.some b) :
    ∀ e ∈ b, e.isBuildDecoder = true := by
  intro e he
  rw [decoderEventsOpt] at hb
  split_ifs at hb
  all_goals
    first
      | exact Option.noConfusion hb
      | (rw [← Option.some.inj hb] at he
         simp at he
         subst he
         rfl)

theorem decodePhase_shape (cfg : Config) :
    ∀ e ∈ decodePhase cfg, e.isInsert = false ∧ e.isSmear = false := by
  intro e he
  rw [decodePhase] at he
  split_ifs at he
  · simp at he
    subst he
    exact ⟨rfl, rfl⟩
  · cases hd : decoderEventsOpt cfg with
    | none =>
      rw [hd] at he
      simp at he
      subst he
      exact ⟨rfl, rfl⟩
    | some b =>
      rw [hd] at he
      obtain ⟨se, _, hm⟩ := List.mem_flatMap.mp he
      rcases List.mem_append.mp hm with hmb | hmd
      · have hbd := decoderEventsOpt_shape cfg b hd e hmb
        cases e <;> simp_all [TraceEvent.isInsert, TraceEvent.isSmear,
          TraceEvent.isBuildDecoder]
      · obtain ⟨j, _, heq⟩ := List.mem_map.mp hmd
        subst heq
        exact ⟨rfl, rfl⟩

/-! ### Claim theorems: trace ordering (C3), fail-fast checks (C5), and the
word-LM decoder with an empty lexicon (C1) -/

/-- C3: in an execution that uses a lexicon and survives the construction
checks, the driver's trace decomposes as all trie insertions, then exactly
one `trie->smear` call, then the decoding phase: every insertion (one per
pronunciation per word) completes before the smear, no insertion happens
after it, and every `decoder->decode` call comes after it
(`Decode.cpp:276-309` before `Decode.cpp:436-455`). -/
theorem smear_after_inserts_before_decodes (cfg : Config) (m : SmearMode)
    (h1 : cfg.lmtype = "kenlm") (h2 : cfg.silToken.length = 1)
    (h3 : cfg.blankToken.length = 1) (h4 : cfg.lexicon.isEmpty = false)
    (h5 : smearModeOf cfg.smearing = Option.some m) :
    mainTrace cfg =
        insertEvents cfg.lexicon ++ TraceEvent.smearEvt m :: decodePhase cfg ∧
      (mainTrace cfg).countP TraceEvent.isSmear = 1 ∧
      (∀ e ∈ insertEvents cfg.lexicon, e.isInsert = true ∧ e.isDecode = false) ∧
      (∀ e ∈ decodePhase cfg, e.isInsert = false ∧ e.isSmear = false) := by
  have htr : mainTrace cfg =
      insertEvents cfg.lexicon ++ TraceEvent.smearEvt m :: decodePhase cfg := by
    rw [mainTrace, if_pos h1, if_neg (by simp [h2]), if_neg (by simp [h3]),
      if_neg (by simp [h4]), h5]
  refine ⟨htr, ?_, ?_, ?_⟩
  · have hins0 : (insertEvents cfg.lexicon).countP TraceEvent.isSmear = 0 :=
      List.countP_eq_zero.mpr
        (fun e he => by simp [(insertEvents_shape cfg.lexicon e he).2.1])
    have hdec0 : (decodePhase cfg).countP TraceEvent.isSmear = 0 :=
      List.countP_eq_zero.mpr
        (fun e he => by simp [(decodePhase_shape cfg e he).2])
    rw [htr, List.countP_append, List.countP_cons, hins0, hdec0]
    rfl
  · exact fun e he =>
      ⟨(insertEvents_shape cfg.lexicon e he).1,
        (insertEvents_shape cfg.lexicon e he).2.2.1⟩
  · exact decodePhase_shape cfg

/-- Witness for C3 on a concrete configuration with a one-word lexicon. -/
theorem smear_after_inserts_before_decodes_witness :
    (lexiconCfg.lmtype = "kenlm" ∧ lexiconCfg.silToken.length = 1 ∧
        lexiconCfg.blankToken.length = 1 ∧ lexiconCfg.lexicon.isEmpty = false ∧
        smearModeOf lexiconCfg.smearing = Option.some SmearMode.maxSmear) ∧
      (mainTrace lexiconCfg =
          insertEvents lexiconCfg.lexicon ++
            TraceEvent.smearEvt SmearMode.maxSmear :: decodePhase lexiconCfg ∧
        (mainTrace lexiconCfg).countP TraceEvent.isSmear = 1 ∧
        (∀ e ∈ insertEvents lexiconCfg.lexicon,
            e.isInsert = true ∧ e.isDecode = false) ∧
        (∀ e ∈ decodePhase lexiconCfg, e.isInsert = false ∧ e.isSmear = false)) :=
  ⟨⟨by decide, by decide, by decide, by decide, by decide⟩,
    smear_after_inserts_before_decodes lexiconCfg SmearMode.maxSmear
      (by decide) (by decide) (by decide) (by decide) (by decide)⟩

/-- C5: whenever the silence token or the blank token is not a single
character, the driver terminates with a fatal error before any decoder
variant is constructed and before any decode call: the whole trace is a
single `LOG(FATAL)` event (`Decode.cpp:263-268`). -/
theorem token_length_checks_fail_fast (cfg : Config)
    (h : cfg.silToken.length ≠ 1 ∨ cfg.blankToken.length ≠ 1) :
    (∃ k, mainTrace cfg = [TraceEvent.fatalEvt k]) ∧
      ∀ e ∈ mainTrace cfg, e.isBuildDecoder = false ∧ e.isDecode = false := by
  have hsingle : ∃ k, mainTrace cfg = [TraceEvent.fatalEvt k] := by
    by_cases hlm : cfg.lmtype = "kenlm"
    · by_cases hsil : cfg.silToken.length ≠ 1
      · exact ⟨FatalKind.invalidSil, by rw [mainTrace, if_pos hlm, if_pos hsil]⟩
      · have hbl : cfg.blankToken.length ≠ 1 := h.resolve_left hsil
        exact ⟨FatalKind.invalidBlank,
          by rw [mainTrace, if_pos hlm, if_neg hsil, if_pos hbl]⟩
    · exact ⟨FatalKind.invalidLMType, by rw [mainTrace, if_neg hlm]⟩
  obtain ⟨k, hk⟩ := hsingle
  refine ⟨⟨k, hk⟩, ?_⟩
  intro e he
  rw [hk] at he
  simp at he
  subst he
  exact ⟨rfl, rfl⟩

/-- Witness for C5: a two-character silence token yields a single fatal
event and no decoder construction. -/
theorem token_length_checks_fail_fast_witness :
    (badSilCfg.silToken.length ≠ 1 ∨ badSilCfg.blankToken.length ≠ 1) ∧
      ((∃ k, mainTrace badSilCfg = [TraceEvent.fatalEvt k]) ∧
        ∀ e ∈ mainTrace badSilCfg, e.isBuildDecoder = false ∧ e.isDecode = false) :=
  ⟨Or.inl (by decide),
    token_length_checks_fail_fast badSilCfg (Or.inl (by decide))⟩

/-- C1 (code evaluation): with `FLAGS_decodertype == "wrd"` and an empty
lexicon, the driver does not fail: its trace is exactly the construction of
a `WordLMDecoder` with a null trie pointer followed by a decode call — no
fatal error precedes decoding (`Decode.cpp:275-277, 318-321`). -/
theorem wordlm_null_trie_constructed :
    mainTrace wrdNoLexiconCfg =
        [TraceEvent.buildDecoderEvt DecoderKind.wordLM Option.none,
          TraceEvent.decodeEvt 0] ∧
      TraceEvent.buildDecoderEvt DecoderKind.wordLM Option.none ∈
        mainTrace wrdNoLexiconCfg ∧
      ∀ e ∈ mainTrace wrdNoLexiconCfg, e.isFatal = false := by
  decide

/-! ### Claim theorems: slice partition (C4) -/

/-- C4 (amended): provided a single worker is used or the float-computed
per-thread count covers all samples (`nSample ≤ nthread * nSamplePerThread`,
which holds in particular whenever the single-precision computation equals
the exact ceiling), the slices handed to the workers are contiguous
(`end` of each slice equals `start` of the next) and every sample index
`j < nSample` lies in exactly one slice, while no slice contains any
`j ≥ nSample`. -/
theorem slices_partition (nS nt : ℕ) (h1 : 1 ≤ nt)
    (h2 : nt = 1 ∨ nS ≤ nt * nSamplePerThread nS nt) :
    (∀ j, (slices nS nt).countP
        (fun se => decide (se.1 ≤ j) && decide (j < se.2)) =
          if j < nS then 1 else 0) ∧
      (slices nS nt).Chain' (fun a b => a.2 = b.1) := by
  by_cases hnt1 : nt = 1
  · subst hnt1
    constructor
    · intro j
      rw [slices, if_neg (by decide), if_pos rfl, List.countP_cons, List.countP_nil]
      by_cases hj : j < nS
      · simp [hj]
      · simp [hj]
    · rw [slices, if_neg (by decide), if_pos rfl]
      exact List.chain'_singleton _
  · have hnt2 : 2 ≤ nt := by omega
    have h2' : nS ≤ nt * nSamplePerThread nS nt := h2.resolve_left hnt1
    rw [slices_eq_slicesRec nS nt hnt2]
    constructor
    · intro j
      rw [slicesRec_countP]
      have hiff : (0 ≤ j ∧ j < nS ∧ j < 0 + nt * nSamplePerThread nS nt) ↔
          j < nS := by omega
      rw [if_congr hiff rfl rfl]
    · exact slicesRec_chain nS (nSamplePerThread nS nt) nt 0

/-- Witness for C4 at `nSample = 5`, `nthread = 2` (the float computation
gives the exact ceiling 3, so the coverage hypothesis holds). -/
theorem slices_partition_witness :
    ((1 : ℕ) ≤ 2 ∧ ((2 : ℕ) = 1 ∨ 5 ≤ 2 * nSamplePerThread 5 2)) ∧
      ((∀ j, (slices 5 2).countP
          (fun se => decide (se.1 ≤ j) && decide (j < se.2)) =
            if j < 5 then 1 else 0) ∧
        (slices 5 2).Chain' (fun a b => a.2 = b.1)) :=
  ⟨⟨by decide, Or.inr (by decide)⟩,
    slices_partition 5 2 (by decide) (Or.inr (by decide))⟩

/-- C4 (counterexample): at `nSample = 25165825 = 3 * 2 ^ 23 + 1` and
`nthread = 3`, the float conversion rounds `nSample` to `25165824`, the
float ceiling is `8388608 < ⌈nSample / 3⌉`, and sample index `25165824`
falls in no worker's slice: the slices do not cover `[0, nSample)`. -/
theorem slices_drop_sample_float :
    25165824 < 25165825 ∧
      (slices 25165825 3).countP
          (fun se => decide (se.1 ≤ 25165824) && decide (25165824 < se.2)) = 0 := by
  constructor
  · decide
  · decide

/-! ### Claim theorems: worker error handling (C2) -/

/-- C2 (code evaluation): with two workers over four samples and a decode
call that throws on sample 0, worker 1's slice succeeds in isolation, yet
the process outcome is termination by worker 0: the `catch` block's
`LOG(FATAL)` (`Decode.cpp:430-432`) aborts the whole process, not just the
failing worker's slice. -/
theorem worker_exception_kills_process :
    processOutcome throwingDecode 4 2 = ProcessOutcome.terminatedBy 0 ∧
      runDecoderWorker throwingDecode 1 2 4 = WorkerOutcome.done := by
  constructor
  · decide
  · decide

/-! ### Claim theorems: transition matrix (C6) -/

/-- C6 (counterexample): in the precomputed-emission path the transition
vector handed to the decoders is the serialized one; with a non-empty
serialized transition and the CTC criterion the decoders receive a
non-empty transition vector although the criterion is not ASG. -/
theorem transition_ctc_nonempty_counterexample :
    transitionVec true [1] Criterion.ctc [] ≠ [] ∧
      Criterion.ctc ≠ Criterion.asg := by
  constructor
  · decide
  · decide

/-- C6 (amended): in the acoustic-model path (`FLAGS_emission_dir` empty)
and provided the ASG criterion's learned parameters are non-empty, the
transition vector passed to every decoder is non-empty exactly when the
criterion is ASG: it equals `criterion->param(0)` for ASG and is empty for
CTC (`Decode.cpp:68, 174-176, 202`). -/
theorem transition_matches_criterion_am_path (s p : List ℚ) (c : Criterion)
    (hp : p ≠ []) :
    (transitionVec false s c p ≠ [] ↔ c = Criterion.asg) ∧
      transitionVec false s Criterion.ctc p = [] ∧
      transitionVec false s Criterion.asg p = p := by
  cases c <;> simp [transitionVec, hp]

/-- Witness for C6 (amended) at concrete vectors. -/
theorem transition_matches_criterion_am_path_witness :
    ([(3 : ℚ)] ≠ ([] : List ℚ)) ∧
      ((transitionVec false [2] Criterion.ctc [3] ≠ [] ↔
          Criterion.ctc = Criterion.asg) ∧
        transitionVec false [2] Criterion.ctc [3] = [] ∧
        transitionVec false [2] Criterion.asg [3] = [3]) :=
  ⟨by decide, transition_matches_criterion_am_path [2] [3] Criterion.ctc (by decide)⟩

/-! ### Claim theorems: reading `results[0]` (C8) -/

/-- C8: the per-slice loop reads `results[0]` of every decode call with no
emptiness guard: it stays in bounds (the loop completes) exactly when
`decoder->decode` returns a non-empty result list for every sample of the
slice; a single empty result list makes the unguarded access out of bounds
(`Decode.cpp:364-368`). -/
theorem results_head_requires_nonempty (decodeFn : ℕ → List DecodeResult)
    (samples : List ℕ) :
    (processSlice decodeFn samples).isSome = true ↔
      ∀ s ∈ samples, decodeFn s ≠ [] := by
  induction samples with
  | nil => simp [processSlice]
  | cons s rest ih =>
    rw [processSlice]
    cases hres : decodeFn s with
    | nil =>
      constructor
      · intro h
        simp [readTopResult] at h
      · intro h
        exact absurd hres (h s (List.mem_cons_self s rest))
    | cons r rs =>
      have hred : (match readTopResult (r :: rs) with
          | Option.none => Option.none
          | Option.some _ => processSlice decodeFn rest) =
            processSlice decodeFn rest := rfl
      rw [hred, ih]
      constructor
      · intro h s2 hs2
        rcases List.mem_cons.mp hs2 with heq | hmem
        · subst heq
          rw [hres]
          simp
        · exact h s2 hmem
      · intro h s2 hs2
        exact h s2 (List.mem_cons_of_mem s hs2)

/-! ### Claim theorems: LM null check (C10) -/

/-- C10: the `if (!lm)` null check after `std::make_shared<KenLM>` can
never fire: `make_shared` either throws (the exception propagates) or
returns a non-null pointer, so the `"Failed to load LM"` fatal branch is
unreachable for every LM type and every constructor behaviour
(`Decode.cpp:251-259`). -/
theorem lm_null_check_unreachable (lmtype : String) (kenlmNew : Except String Unit) :
    buildLM lmtype kenlmNew ≠ LMBuildResult.fatalFailedToLoad := by
  rw [buildLM.eq_def]
  by_cases h : lmtype = "kenlm"
  · rw [if_pos h]
    cases kenlmNew with
    | error msg => simp
    | ok u => simp
  · rw [if_neg h]
    simp

end W2LDecode
